import Mathlib

/-!
Verification of the credit-card transactions pipeline
(personal-finance-analyzer/credit_card_transactions_pipeline.py).

The pipeline reads issuer CSV exports, renames columns to a canonical
schema, cleans rows, assigns a per-batch sequence number, merges the batch
with a stored transaction history and persists files.  DataFrames are
modelled as Lean lists of records; text cells are lists of characters
(pandas object columns hold strings, compared lexicographically); the
possibly-missing Debit/Credit cells are Option values (NaN = none);
monetary amounts are integers.

Two views of the same source function are used where the claims need
different granularity: a column-level view (the set of column labels of
the frame, for schema checks and column drops) and a row-level view (the
list of records, for value transformations).  Both are translated from the
same Python statements.
-/

/-- Text cell of a DataFrame column, as a list of characters. -/
abbrev Str : Type := List Char

/-- Modelled from the spec: the module constant.py is not part of the
provided sources, so the canonical column-name constants are taken from
the specification's canonical field names.  Only their distinctness and
their difference from the issuer-specific labels matter below. -/
def DATE : Str := "date".data

/-- Modelled from the spec: canonical card-number column name. -/
def CARD_NUMBER : Str := "card_number".data

/-- Modelled from the spec: canonical raw-merchant column name
(the spec calls this field merchant_raw). -/
def BUSINESS_OR_PERSON_ORIGINAL : Str := "business_or_person_original".data

/-- Modelled from the spec: canonical normalized-merchant column name
(the spec calls this field merchant_normalized). -/
def BUSINESS_OR_PERSON : Str := "business_or_person".data

/-- Modelled from the spec: canonical category column name. -/
def CATEGORY : Str := "category".data

/-- Modelled from the spec: canonical debit-amount column name. -/
def DEBIT : Str := "debit".data

/-- Modelled from the spec: canonical credit-amount column name. -/
def CREDIT : Str := "credit".data

/-- Issuer-specific column dropped by the cleaner. -/
def POSTED_DATE : Str := "Posted Date".data

/-- Column renaming of extract_capital_one_transactions: the df.rename
mapping from Capital One headers to canonical names; other labels pass
through unchanged. -/
def renameColumn (s : Str) : Str :=
  if s = "Transaction Date".data then DATE
  else if s = "Card No.".data then CARD_NUMBER
  else if s = "Description".data then BUSINESS_OR_PERSON_ORIGINAL
  else if s = "Category".data then CATEGORY
  else if s = "Debit".data then DEBIT
  else if s = "Credit".data then CREDIT
  else s

/-- Expected canonical columns checked by extract_capital_one_transactions. -/
def expected_columns : List Str :=
  [DATE, CARD_NUMBER, BUSINESS_OR_PERSON_ORIGINAL, CATEGORY, DEBIT, CREDIT]

/-- Error message raised by extract_capital_one_transactions. -/
def schemaErrorMsg : Str := "DataFrame is missing one or more expected columns.".data

/-- Error raised by pandas df.drop when the label is absent. -/
def keyErrorPostedDate : Str := "KeyError: Posted Date".data

deriving instance DecidableEq for Except

/-- Column-level view of extract_capital_one_transactions: rename the
issuer headers, then raise ValueError unless every expected canonical
column is present; otherwise return the renamed frame. -/
def extract_capital_one_columns (cols : List Str) : Except Str (List Str) :=
  let renamed := cols.map renameColumn
  if expected_columns.all (fun c => decide (c ∈ renamed)) then Except.ok renamed
  else Except.error schemaErrorMsg

/-- Column-level view of clean_capital_one_transactions: the assignment to
the raw-merchant column changes no labels, the assignment to the
normalized-merchant column adds that label when absent, dropna changes no
labels, and df.drop removes the Posted Date label, raising a KeyError when
it is absent (the drop is written without a guard in the source). -/
def clean_capital_one_columns (cols : List Str) : Except Str (List Str) :=
  let cols1 := if BUSINESS_OR_PERSON ∈ cols then cols else cols ++ [BUSINESS_OR_PERSON]
  if POSTED_DATE ∈ cols1 then Except.ok (cols1.erase POSTED_DATE)
  else Except.error keyErrorPostedDate

/-- Row of a normalized frame as returned by extract_capital_one_transactions:
canonical columns only (the issuer's Posted Date column is tracked by the
column-level view).  Debit and Credit cells may be NaN. -/
structure RawRow where
  date : Str
  card_number : Str
  business_or_person_original : Str
  category : Str
  debit : Option Int
  credit : Option Int
deriving DecidableEq, Repr

/-- Row after clean_capital_one_transactions: the raw merchant text is
lower-cased and the derived normalized-merchant column is present. -/
structure NormedRow where
  date : Str
  card_number : Str
  business_or_person_original : Str
  business_or_person : Str
  category : Str
  debit : Option Int
  credit : Option Int
deriving DecidableEq, Repr

/-- Row after set_unique_identifiers: the sequence column is present. -/
structure Row extends NormedRow where
  sequence : Nat
deriving DecidableEq, Repr

/-- Character filter of the regex replacement str.replace with pattern
matching digit and hash characters and empty replacement: every digit and
every hash character is removed. -/
def stripDigitsHash (s : Str) : Str :=
  s.filter (fun ch => !(ch.isDigit || ch == '#'))

/-- Row-level view of clean_capital_one_transactions: lower-case the raw
merchant column in place, derive the normalized merchant column from it,
then dropna on the debit column (rows with a NaN debit are removed). -/
def clean_capital_one_transactions (rows : List RawRow) : List NormedRow :=
  let lowered := rows.map (fun r =>
    { r with business_or_person_original := r.business_or_person_original.map Char.toLower })
  let withNormalized := lowered.map (fun r =>
    { date := r.date
      card_number := r.card_number
      business_or_person_original := r.business_or_person_original
      business_or_person := stripDigitsHash r.business_or_person_original
      category := r.category
      debit := r.debit
      credit := r.credit : NormedRow })
  withNormalized.filter (fun r => r.debit.isSome)

/-- Grouping key of the groupby in set_unique_identifiers. -/
def groupKey (r : NormedRow) : Str × Str × Str × Option Int :=
  (r.date, r.card_number, r.business_or_person_original, r.debit)

/-- Grouping key read off a row that already carries a sequence. -/
def rowGroupKey (r : Row) : Str × Str × Str × Option Int :=
  (r.date, r.card_number, r.business_or_person_original, r.debit)

/-- Deduplication key of the drop_duplicates subset in
clean_transaction_history. -/
def dedupKey (r : Row) : Str × Str × Option Int × Nat :=
  (r.date, r.business_or_person_original, r.debit, r.sequence)

/-- Helper for set_unique_identifiers: walks the rows in order carrying
the group keys of the rows already passed; groupby(...).cumcount() counts,
for each row, the earlier rows of the frame in the same group, and the
source adds one to that count. -/
def set_unique_identifiers_aux (seen : List (Str × Str × Str × Option Int)) :
    List NormedRow → List Row
  | [] => []
  | r :: rs =>
    { toNormedRow := r, sequence := seen.count (groupKey r) + 1 }
      :: set_unique_identifiers_aux (groupKey r :: seen) rs

/-- Embedding of set_unique_identifiers: sequence = cumcount within the
group of (date, card number, raw merchant, debit) plus one, in row order. -/
def set_unique_identifiers (rows : List NormedRow) : List Row :=
  set_unique_identifiers_aux [] rows

/-- Helper for drop_duplicates with keep equal to first (the pandas
default): a row is kept when its dedup key has not appeared before. -/
def drop_duplicates_aux (seen : List (Str × Str × Option Int × Nat)) :
    List Row → List Row
  | [] => []
  | r :: rs =>
    if dedupKey r ∈ seen then drop_duplicates_aux seen rs
    else r :: drop_duplicates_aux (dedupKey r :: seen) rs

/-- Embedding of df.drop_duplicates(subset=[date, raw merchant, debit,
sequence]): keeps the first occurrence of each dedup key. -/
def drop_duplicates (l : List Row) : List Row := drop_duplicates_aux [] l

/-- Lexicographic strict order on text cells, as pandas compares strings. -/
def strLt : Str → Str → Bool
  | [], [] => false
  | [], _ :: _ => true
  | _ :: _, [] => false
  | a :: as, b :: bs => if a < b then true else if b < a then false else strLt as bs

/-- Row comparison of df.sort_values(by=[date, category, normalized
merchant], ascending=[False, True, True]): a row comes no later than
another when its date is larger, or dates tie and its category is
smaller, or categories also tie and its normalized merchant is no
larger. -/
def rowLe (a b : Row) : Bool :=
  strLt b.date a.date ||
    (b.date == a.date &&
      (strLt a.category b.category ||
        (a.category == b.category && !(strLt b.business_or_person a.business_or_person))))

/-- Insertion step of the stable sort. -/
def insertRow (x : Row) : List Row → List Row
  | [] => [x]
  | y :: ys => if rowLe x y then x :: y :: ys else y :: insertRow x ys

/-- Stable sort by the canonical ordering.  Sorting on several columns,
pandas sort_values uses a stable lexicographic sort; any stable sort by
the same comparison yields the same list, so insertion sort is used
here. -/
def sort_values : List Row → List Row
  | [] => []
  | x :: xs => insertRow x (sort_values xs)

/-- Embedding of clean_transaction_history: drop duplicate rows by the
dedup key, then sort by the canonical ordering. -/
def clean_transaction_history (l : List Row) : List Row :=
  sort_values (drop_duplicates l)

/-- Merge of main: the new batch is concatenated in front of the stored
history (pd.concat([transactions_df, transaction_history_df])), then
clean_transaction_history is applied. -/
def mergeLedger (batch history : List Row) : List Row :=
  clean_transaction_history (batch ++ history)

/-- Decidable check that a ledger is sorted by the canonical ordering. -/
def isSortedLedger : List Row → Bool
  | [] => true
  | [_] => true
  | a :: b :: t => rowLe a b && isSortedLedger (b :: t)

/-- Files written by one run of main, plus whether the run aborted because
the transaction-history file was absent. -/
structure RunOutcome where
  importedSnapshot : Option (List Row)
  historyFile : Option (List Row)
  missingHistoryError : Bool
deriving DecidableEq, Repr

/-- Embedding of the tail of main, after the per-file extraction loop has
produced the processed batch transactions_df.  When the batch is empty the
run returns with no writes.  Otherwise load_transactions writes the dated
snapshot of the batch first; then extract_transaction_history raises when
the stored history is absent (modelled as storedHistory = none), so the
run aborts with the snapshot already written; when the history exists, the
merged ledger transaction_history_df is computed, but the file at
TRANSACTIONS_HISTORY_FILE_PATH is written from transactions_df — the
source persists the pre-merge batch and discards the merged frame. -/
def mainRun (transactions_df : List Row) (storedHistory : Option (List Row)) :
    RunOutcome :=
  if transactions_df.isEmpty then ⟨none, none, false⟩
  else
    match storedHistory with
    | none => ⟨some transactions_df, none, true⟩
    | some h =>
      let _transaction_history_df := clean_transaction_history (transactions_df ++ h)
      ⟨some transactions_df, some transactions_df, false⟩

/-- Sortedness of a ledger by the canonical ordering, as a proposition:
every row compares no later than every row after it. -/
def SortedRows (l : List Row) : Prop :=
  List.Pairwise (fun a b => rowLe a b = true) l

/-- Uniqueness of the dedup key inside a ledger: the keys of the rows are
pairwise distinct. -/
def DedupKeysUnique (l : List Row) : Prop :=
  (l.map dedupKey).Nodup

/-- Sample historical ledger row used in concrete runs. -/
def sampleHistoryRow : Row :=
  { date := "2023-12-31".data, card_number := "9999".data,
    business_or_person_original := "grocer".data,
    business_or_person := "grocer".data, category := "groceries".data,
    debit := some 1200, credit := none, sequence := 1 }

/-- Sample batch row used in concrete runs. -/
def sampleBatchRow : Row :=
  { date := "2024-01-05".data, card_number := "1234".data,
    business_or_person_original := "coffee shop".data,
    business_or_person := "coffee shop".data, category := "dining".data,
    debit := some 450, credit := none, sequence := 1 }

/-- Second sample batch row, dated after sampleBatchRow, so that the batch
list [sampleBatchRow, sampleBatchRowLater] is not in date-descending
order. -/
def sampleBatchRowLater : Row :=
  { date := "2024-02-06".data, card_number := "1234".data,
    business_or_person_original := "book store".data,
    business_or_person := "book store".data, category := "shopping".data,
    debit := some 2000, credit := none, sequence := 1 }

/-- Historical row that agrees with sampleBatchRow on the whole dedup key
(date, raw merchant, debit, sequence) but differs elsewhere. -/
def sampleDupHistRow : Row :=
  { sampleBatchRow with card_number := "8888".data, category := "unknown".data }

/-- Cleaned row before identity assignment; same date, merchant and debit
as sampleNormedOtherCard but a different card number. -/
def sampleNormedRow : NormedRow :=
  { date := "2024-01-05".data, card_number := "1111".data,
    business_or_person_original := "coffee shop".data,
    business_or_person := "coffee shop".data, category := "dining".data,
    debit := some 450, credit := none }

/-- Cleaned row agreeing with sampleNormedRow on date, merchant and debit
but carried by a different card. -/
def sampleNormedOtherCard : NormedRow :=
  { sampleNormedRow with card_number := "2222".data }

example : stripDigitsHash "shop #12a".data = "shop a".data := by decide

example :
    clean_capital_one_columns [DATE, CARD_NUMBER, BUSINESS_OR_PERSON_ORIGINAL,
      CATEGORY, DEBIT, CREDIT] = Except.error keyErrorPostedDate := by decide

example :
    extract_capital_one_columns ["Transaction Date".data, "Posted Date".data,
      "Card No.".data, "Description".data, "Category".data, "Debit".data,
      "Credit".data] =
      Except.ok [DATE, POSTED_DATE, CARD_NUMBER, BUSINESS_OR_PERSON_ORIGINAL,
        CATEGORY, DEBIT, CREDIT] := by decide

theorem strLt_iff_lex {a b : Str} : strLt a b = true ↔ List.Lex (· < ·) a b := by
  induction a generalizing b with
  | nil =>
    cases b with
    | nil => simp [strLt]
    | cons y ys => simp [strLt]; exact List.Lex.nil
  | cons x xs ih =>
    cases b with
    | nil =>
      simp [strLt]
    | cons y ys =>
      by_cases hxy : x < y
      · simp [strLt, hxy]
        exact List.Lex.rel hxy
      · by_cases hyx : y < x
        · simp [strLt, hxy, hyx]
          intro h
          cases h with
          | cons h => exact absurd hyx (lt_irrefl _)
          | rel h => exact absurd h hxy
        · have hxy2 : x = y := le_antisymm (not_lt.mp hyx) (not_lt.mp hxy)
          subst hxy2
          simp [strLt, hxy]
          rw [ih]
          exact (List.Lex.cons_iff).symm

theorem strLt_trans {a b c : Str} (h1 : strLt a b = true) (h2 : strLt b c = true) :
    strLt a c = true := by
  rw [strLt_iff_lex] at h1 h2 ⊢
  exact (inferInstance : IsTrans (List Char) (List.Lex (· < ·))).trans a b c h1 h2

theorem strLt_irrefl (a : Str) : strLt a a = false := by
  cases hx : strLt a a with
  | false => rfl
  | true =>
    rw [strLt_iff_lex] at hx
    exact absurd hx (irrefl_of _ a)

theorem strLt_asymm {a b : Str} (h : strLt a b = true) : strLt b a = false := by
  rw [strLt_iff_lex] at h
  cases hx : strLt b a with
  | false => rfl
  | true => rw [strLt_iff_lex] at hx; exact absurd h (asymm_of _ hx)

theorem strLt_connex {a b : Str} (h1 : strLt a b = false) (h2 : strLt b a = false) :
    a = b := by
  rcases (inferInstance : IsTrichotomous (List Char) (List.Lex (· < ·))).trichotomous a b
    with h | h | h
  · rw [← strLt_iff_lex] at h; rw [h1] at h; exact absurd h (by simp)
  · exact h
  · rw [← strLt_iff_lex] at h; rw [h2] at h; exact absurd h (by simp)

theorem strLt_false_trans {a b c : Str} (h1 : strLt b a = false) (h2 : strLt c b = false) :
    strLt c a = false := by
  cases hx : strLt c a with
  | false => rfl
  | true =>
    rcases (inferInstance : IsTrichotomous (List Char) (List.Lex (· < ·))).trichotomous a b
      with h | h | h
    · rw [← strLt_iff_lex] at h
      have := strLt_trans hx h
      rw [this] at h2
      exact absurd h2 (by simp)
    · subst h
      rw [hx] at h2
      exact absurd h2 (by simp)
    · rw [← strLt_iff_lex] at h
      rw [h1] at h
      exact absurd h (by simp)

theorem rowLe_total (a b : Row) : rowLe a b = true ∨ rowLe b a = true := by
  cases h1 : strLt b.date a.date with
  | true => left; simp [rowLe, h1]
  | false =>
    cases h2 : strLt a.date b.date with
    | true => right; simp [rowLe, h2]
    | false =>
      have hd : a.date = b.date := strLt_connex h2 h1
      cases h3 : strLt a.category b.category with
      | true => left; simp [rowLe, hd, strLt_irrefl, h3]
      | false =>
        cases h4 : strLt b.category a.category with
        | true => right; simp [rowLe, hd, strLt_irrefl, h4]
        | false =>
          have hc : b.category = a.category := strLt_connex h4 h3
          cases h5 : strLt b.business_or_person a.business_or_person with
          | false => left; simp [rowLe, hd, hc, strLt_irrefl, h5]
          | true =>
            right
            have h6 := strLt_asymm h5
            simp [rowLe, hd, hc, strLt_irrefl, h6]

theorem rowLe_prop {a b : Row} : rowLe a b = true ↔
    (strLt b.date a.date = true ∨ (b.date = a.date ∧
      (strLt a.category b.category = true ∨ (a.category = b.category ∧
        strLt b.business_or_person a.business_or_person = false)))) := by
  simp [rowLe, Bool.or_eq_true, Bool.and_eq_true]

theorem rowLe_trans {a b c : Row} (h1 : rowLe a b = true) (h2 : rowLe b c = true) :
    rowLe a c = true := by
  rw [rowLe_prop] at h1 h2 ⊢
  rcases h1 with h1 | ⟨hd1, h1⟩
  · rcases h2 with h2 | ⟨hd2, h2⟩
    · exact Or.inl (strLt_trans h2 h1)
    · rw [hd2]
      exact Or.inl h1
  · rcases h2 with h2 | ⟨hd2, h2⟩
    · rw [hd1] at h2
      exact Or.inl h2
    · refine Or.inr ⟨hd2.trans hd1, ?_⟩
      rcases h1 with h1 | ⟨hc1, h1⟩
      · rcases h2 with h2 | ⟨hc2, h2⟩
        · exact Or.inl (strLt_trans h1 h2)
        · rw [← hc2]
          exact Or.inl h1
      · rcases h2 with h2 | ⟨hc2, h2⟩
        · rw [hc1]
          exact Or.inl h2
        · exact Or.inr ⟨hc1.trans hc2, strLt_false_trans h1 h2⟩

theorem insertRow_perm (x : Row) (l : List Row) : (insertRow x l).Perm (x :: l) := by
  induction l with
  | nil => exact List.Perm.refl _
  | cons y ys ih =>
    simp only [insertRow]
    by_cases h : rowLe x y = true
    · rw [if_pos h]
    · rw [if_neg h]
      exact (ih.cons y).trans (List.Perm.swap x y ys)

theorem sort_values_perm (l : List Row) : (sort_values l).Perm l := by
  induction l with
  | nil => exact List.Perm.refl _
  | cons x xs ih => exact (insertRow_perm x (sort_values xs)).trans (ih.cons x)

theorem mem_insertRow {x y : Row} {l : List Row} :
    y ∈ insertRow x l ↔ y = x ∨ y ∈ l := by
  rw [(insertRow_perm x l).mem_iff, List.mem_cons]

theorem insertRow_sorted {x : Row} {l : List Row} (h : SortedRows l) :
    SortedRows (insertRow x l) := by
  induction l with
  | nil => simp [insertRow, SortedRows]
  | cons y ys ih =>
    rcases List.pairwise_cons.mp h with ⟨hy, hys⟩
    simp only [insertRow]
    by_cases hxy : rowLe x y = true
    · rw [if_pos hxy]
      refine List.pairwise_cons.mpr ⟨?_, h⟩
      intro z hz
      rcases List.mem_cons.mp hz with rfl | hz
      · exact hxy
      · exact rowLe_trans hxy (hy z hz)
    · rw [if_neg hxy]
      have hyx : rowLe y x = true := (rowLe_total x y).resolve_left hxy
      refine List.pairwise_cons.mpr ⟨?_, ih hys⟩
      intro z hz
      rcases mem_insertRow.mp hz with rfl | hz
      · exact hyx
      · exact hy z hz

theorem sort_values_sorted (l : List Row) : SortedRows (sort_values l) := by
  induction l with
  | nil => simp [sort_values, SortedRows]
  | cons x xs ih => exact insertRow_sorted ih

theorem insertRow_of_le {x : Row} {l : List Row} (h : ∀ z ∈ l, rowLe x z = true) :
    insertRow x l = x :: l := by
  cases l with
  | nil => rfl
  | cons y ys => simp [insertRow, h y (by simp)]

theorem sort_values_of_sorted {l : List Row} (h : SortedRows l) : sort_values l = l := by
  induction l with
  | nil => rfl
  | cons x xs ih =>
    rcases List.pairwise_cons.mp h with ⟨hx, hxs⟩
    simp only [sort_values]
    rw [ih hxs]
    exact insertRow_of_le hx

theorem sort_values_idem (l : List Row) :
    sort_values (sort_values l) = sort_values l :=
  sort_values_of_sorted (sort_values_sorted l)

theorem sort_values_append_sort (l1 l2 : List Row) :
    sort_values (l1 ++ sort_values l2) = sort_values (l1 ++ l2) := by
  induction l1 with
  | nil => simpa using sort_values_idem l2
  | cons x xs ih =>
    simp only [List.cons_append, sort_values]
    exact congrArg (insertRow x) ih

theorem filter_insertRow (p : Row → Bool) (x : Row) {l : List Row} (hl : SortedRows l) :
    (insertRow x l).filter p =
      if p x then insertRow x (l.filter p) else l.filter p := by
  induction l with
  | nil => cases hpx : p x <;> simp [insertRow, List.filter_cons, hpx]
  | cons y ys ih =>
    rcases List.pairwise_cons.mp hl with ⟨hy, hys⟩
    simp only [insertRow]
    by_cases hxy : rowLe x y = true
    · rw [if_pos hxy]
      cases hpx : p x with
      | false => simp [List.filter_cons, hpx]
      | true =>
        cases hpy : p y with
        | true =>
          simp only [List.filter_cons, hpx, hpy, if_true]
          simp [insertRow, hxy]
        | false =>
          simp only [List.filter_cons, hpx, hpy, if_true, if_false]
          rw [insertRow_of_le]
          intro z hz
          exact rowLe_trans hxy (hy z (List.mem_of_mem_filter hz))
    · rw [if_neg hxy]
      cases hpy : p y with
      | true =>
        simp only [List.filter_cons, hpy, if_true]
        rw [ih hys]
        cases hpx : p x with
        | true => simp [insertRow, hxy]
        | false => simp
      | false =>
        simp only [List.filter_cons, hpy, ih hys]
        simp

theorem filter_sort_values (p : Row → Bool) (l : List Row) :
    (sort_values l).filter p = sort_values (l.filter p) := by
  induction l with
  | nil => rfl
  | cons x xs ih =>
    simp only [sort_values]
    rw [filter_insertRow p x (sort_values_sorted xs), ih, List.filter_cons]
    cases hpx : p x with
    | true => simp [sort_values]
    | false => simp [sort_values]

theorem dda_congr {s1 s2 : List (Str × Str × Option Int × Nat)}
    (h : ∀ k, k ∈ s1 ↔ k ∈ s2) (l : List Row) :
    drop_duplicates_aux s1 l = drop_duplicates_aux s2 l := by
  induction l generalizing s1 s2 with
  | nil => rfl
  | cons x xs ih =>
    simp only [drop_duplicates_aux]
    by_cases hx : dedupKey x ∈ s1
    · rw [if_pos hx, if_pos ((h _).mp hx)]
      exact ih h
    · rw [if_neg hx, if_neg (fun c => hx ((h _).mpr c))]
      have h2 : ∀ k, k ∈ dedupKey x :: s1 ↔ k ∈ dedupKey x :: s2 := by
        intro k
        simp [List.mem_cons, h k]
      exact congrArg (x :: ·) (ih h2)

theorem dda_append (s : List (Str × Str × Option Int × Nat)) (a b : List Row) :
    drop_duplicates_aux s (a ++ b) =
      drop_duplicates_aux s a ++ drop_duplicates_aux (a.map dedupKey ++ s) b := by
  induction a generalizing s with
  | nil => simp [drop_duplicates_aux]
  | cons x xs ih =>
    simp only [List.cons_append, drop_duplicates_aux, List.map_cons, List.append_eq]
    by_cases hx : dedupKey x ∈ s
    · rw [if_pos hx, if_pos hx, ih]
      congr 1
      apply dda_congr
      intro k
      simp only [List.mem_cons, List.mem_append]
      constructor
      · intro hc
        exact Or.inr hc
      · rintro (rfl | hc)
        · exact Or.inr hx
        · exact hc
    · rw [if_neg hx, if_neg hx, ih]
      simp only [List.cons_append]
      congr 2
      apply dda_congr
      intro k
      simp only [List.mem_cons, List.mem_append]
      tauto

theorem mem_of_mem_dda {s : List (Str × Str × Option Int × Nat)} {l : List Row} {x : Row}
    (h : x ∈ drop_duplicates_aux s l) : x ∈ l := by
  induction l generalizing s with
  | nil => exact absurd h (by simp [drop_duplicates_aux])
  | cons y ys ih =>
    simp only [drop_duplicates_aux] at h
    by_cases hy : dedupKey y ∈ s
    · rw [if_pos hy] at h
      exact List.mem_cons_of_mem y (ih h)
    · rw [if_neg hy] at h
      rcases List.mem_cons.mp h with rfl | h
      · exact List.mem_cons_self _ _
      · exact List.mem_cons_of_mem y (ih h)

theorem key_not_seen_of_mem_dda {s : List (Str × Str × Option Int × Nat)} {l : List Row}
    {x : Row} (h : x ∈ drop_duplicates_aux s l) : dedupKey x ∉ s := by
  induction l generalizing s with
  | nil => exact absurd h (by simp [drop_duplicates_aux])
  | cons y ys ih =>
    simp only [drop_duplicates_aux] at h
    by_cases hy : dedupKey y ∈ s
    · rw [if_pos hy] at h
      exact ih h
    · rw [if_neg hy] at h
      rcases List.mem_cons.mp h with rfl | h
      · exact hy
      · intro hc
        exact ih h (List.mem_cons_of_mem _ hc)

theorem nodup_keys_dda (s : List (Str × Str × Option Int × Nat)) (l : List Row) :
    ((drop_duplicates_aux s l).map dedupKey).Nodup := by
  induction l generalizing s with
  | nil => simp [drop_duplicates_aux]
  | cons x xs ih =>
    simp only [drop_duplicates_aux]
    by_cases hx : dedupKey x ∈ s
    · rw [if_pos hx]
      exact ih s
    · rw [if_neg hx]
      simp only [List.map_cons, List.nodup_cons]
      refine ⟨?_, ih _⟩
      intro hc
      rcases List.mem_map.mp hc with ⟨y, hy, hyk⟩
      exact key_not_seen_of_mem_dda hy (by simp [hyk])

theorem dda_eq_filter_of_nodup {l : List Row} (h : (l.map dedupKey).Nodup)
    (s : List (Str × Str × Option Int × Nat)) :
    drop_duplicates_aux s l = l.filter (fun x => decide (dedupKey x ∉ s)) := by
  induction l generalizing s with
  | nil => rfl
  | cons x xs ih =>
    simp only [List.map_cons, List.nodup_cons] at h
    obtain ⟨hx, hxs⟩ := h
    simp only [drop_duplicates_aux, List.filter_cons]
    by_cases hmem : dedupKey x ∈ s
    · rw [if_pos hmem, ih hxs s]
      simp [hmem]
    · rw [if_neg hmem, ih hxs (dedupKey x :: s)]
      have hcong : ∀ a ∈ xs,
          (decide (dedupKey a ∉ dedupKey x :: s)) = (decide (dedupKey a ∉ s)) := by
        intro a ha
        have hne : dedupKey a ≠ dedupKey x := by
          intro e
          exact hx (e ▸ List.mem_map_of_mem dedupKey ha)
        simp [List.mem_cons, hne]
      rw [List.filter_congr hcong]
      simp [hmem]

theorem drop_duplicates_append (a b : List Row) :
    drop_duplicates (a ++ b) =
      drop_duplicates a ++ drop_duplicates_aux (a.map dedupKey) b := by
  unfold drop_duplicates
  rw [dda_append]
  congr 1
  apply dda_congr
  intro k
  simp

theorem clean_transaction_history_keys_nodup (l : List Row) :
    DedupKeysUnique (clean_transaction_history l) := by
  unfold DedupKeysUnique clean_transaction_history drop_duplicates
  exact ((sort_values_perm (drop_duplicates_aux [] l)).map dedupKey).nodup_iff.mpr
    (nodup_keys_dda [] l)

theorem clean_transaction_history_sorted (l : List Row) :
    SortedRows (clean_transaction_history l) :=
  sort_values_sorted (drop_duplicates l)

theorem mergeLedger_idem (B H : List Row) :
    mergeLedger B (mergeLedger B H) = mergeLedger B H := by
  have hM : mergeLedger B H = sort_values (drop_duplicates (B ++ H)) := rfl
  have hDsplit : drop_duplicates (B ++ H) =
      drop_duplicates B ++ drop_duplicates_aux (B.map dedupKey) H :=
    drop_duplicates_append B H
  have hnodupD : ((drop_duplicates (B ++ H)).map dedupKey).Nodup := nodup_keys_dda [] (B ++ H)
  have hnodupM : ((mergeLedger B H).map dedupKey).Nodup := by
    rw [hM]
    exact ((sort_values_perm (drop_duplicates (B ++ H))).map dedupKey).nodup_iff.mpr hnodupD
  have hsplit2 : drop_duplicates (B ++ mergeLedger B H) =
      drop_duplicates B ++ drop_duplicates_aux (B.map dedupKey) (mergeLedger B H) :=
    drop_duplicates_append B (mergeLedger B H)
  have hfilter : drop_duplicates_aux (B.map dedupKey) (mergeLedger B H) =
      (mergeLedger B H).filter (fun x => decide (dedupKey x ∉ B.map dedupKey)) :=
    dda_eq_filter_of_nodup hnodupM _
  have hcomm : (mergeLedger B H).filter (fun x => decide (dedupKey x ∉ B.map dedupKey)) =
      sort_values ((drop_duplicates (B ++ H)).filter
        (fun x => decide (dedupKey x ∉ B.map dedupKey))) := by
    rw [hM, filter_sort_values]
  have hfB : (drop_duplicates B).filter
      (fun x => decide (dedupKey x ∉ B.map dedupKey)) = [] := by
    apply List.filter_eq_nil_iff.mpr
    intro x hx
    have : x ∈ B := mem_of_mem_dda hx
    simp [List.mem_map_of_mem dedupKey this]
  have hfR : (drop_duplicates_aux (B.map dedupKey) H).filter
      (fun x => decide (dedupKey x ∉ B.map dedupKey)) =
      drop_duplicates_aux (B.map dedupKey) H := by
    apply List.filter_eq_self.mpr
    intro x hx
    simp [key_not_seen_of_mem_dda hx]
  calc mergeLedger B (mergeLedger B H)
      = sort_values (drop_duplicates (B ++ mergeLedger B H)) := rfl
    _ = sort_values (drop_duplicates B ++
          sort_values (drop_duplicates_aux (B.map dedupKey) H)) := by
        rw [hsplit2, hfilter, hcomm, hDsplit, List.filter_append, hfB, hfR,
          List.nil_append]
    _ = sort_values (drop_duplicates B ++ drop_duplicates_aux (B.map dedupKey) H) :=
        sort_values_append_sort _ _
    _ = mergeLedger B H := by rw [hM, hDsplit]

theorem filter_key_dda (k : Str × Str × Option Int × Nat)
    (s : List (Str × Str × Option Int × Nat)) (l : List Row) :
    (drop_duplicates_aux s l).filter (fun r => decide (dedupKey r = k)) =
      if k ∈ s then [] else (l.filter (fun r => decide (dedupKey r = k))).take 1 := by
  induction l generalizing s with
  | nil => simp [drop_duplicates_aux]
  | cons x xs ih =>
    simp only [drop_duplicates_aux, List.filter_cons]
    by_cases hx : dedupKey x ∈ s
    · rw [if_pos hx, ih]
      by_cases hk : k ∈ s
      · simp [hk]
      · have hne : ¬ dedupKey x = k := fun e => hk (e ▸ hx)
        simp [hk, hne]
    · rw [if_neg hx]
      by_cases hxk : dedupKey x = k
      · subst hxk
        have hk : dedupKey x ∉ s := hx
        rw [List.filter_cons, ih]
        simp [hk, List.mem_cons]
      · rw [List.filter_cons, ih]
        by_cases hk : k ∈ s
        · simp [hk, hxk, List.mem_cons]
        · have hks : k ∉ dedupKey x :: s := by
            simp only [List.mem_cons]
            rintro (rfl | hc)
            · exact hxk rfl
            · exact hk hc
          simp [hk, hxk, hks]

/-- C10: for every merge in which the new batch contains a record with
dedup key k, the merged ledger's records with key k are exactly the first
record of the batch carrying k — deduplication keeps the first occurrence
in concatenation order, and the new batch is concatenated in front of the
history, so the surviving copy among any duplicates is the batch's, never
the historical one. -/
theorem mergeLedger_filter_key (B H : List Row) (k : Str × Str × Option Int × Nat)
    (hk : k ∈ B.map dedupKey) :
    (mergeLedger B H).filter (fun r => decide (dedupKey r = k)) =
      (B.filter (fun r => decide (dedupKey r = k))).take 1 := by
  have h1 : mergeLedger B H = sort_values (drop_duplicates_aux [] (B ++ H)) := rfl
  rw [h1, filter_sort_values, filter_key_dda, if_neg (by simp)]
  rw [List.filter_append]
  have hne : B.filter (fun r => decide (dedupKey r = k)) ≠ [] := by
    rcases List.mem_map.mp hk with ⟨b, hb, rfl⟩
    intro hnil
    have : b ∈ B.filter (fun r => decide (dedupKey r = dedupKey b)) :=
      List.mem_filter.mpr ⟨hb, by simp⟩
    rw [hnil] at this
    exact absurd this (List.not_mem_nil b)
  rcases List.exists_cons_of_ne_nil hne with ⟨b, t, hbt⟩
  rw [hbt]
  simp [sort_values, insertRow]

theorem rowGroupKey_mk (x : NormedRow) (n : Nat) :
    rowGroupKey { toNormedRow := x, sequence := n } = groupKey x := rfl

theorem sui_aux_group_sequences (k : Str × Str × Str × Option Int)
    (seen : List (Str × Str × Str × Option Int)) (l : List NormedRow) :
    ((set_unique_identifiers_aux seen l).filter
        (fun r => decide (rowGroupKey r = k))).map (fun r => r.sequence) =
      List.range' (seen.count k + 1)
        ((l.filter (fun r => decide (groupKey r = k))).length) := by
  induction l generalizing seen with
  | nil => simp [set_unique_identifiers_aux]
  | cons x xs ih =>
    simp only [set_unique_identifiers_aux, List.filter_cons, rowGroupKey_mk]
    by_cases hx : groupKey x = k
    · subst hx
      simp only [decide_True, if_true, List.map_cons, List.length_cons, List.range'_succ]
      rw [ih, List.count_cons_self]
    · have hd : (decide (groupKey x = k)) = false := by simp [hx]
      simp only [hd, Bool.false_eq_true, if_false]
      rw [ih, List.count_cons_of_ne (fun e => hx e.symm)]

/-- C4: for every batch, after identity assignment, within each group of
records sharing (date, card_number, merchant_raw, debit_amount) the
assigned sequence values read off in the group's row order are exactly
1, 2, ..., N with no gaps and no repeats, where N is the group's size; in
particular two rows identical on those fields receive sequence 1 and 2 and
so have distinct dedup keys. -/
theorem sequence_values_enumerate_groups (rows : List NormedRow)
    (k : Str × Str × Str × Option Int) :
    ((set_unique_identifiers rows).filter
        (fun r => decide (rowGroupKey r = k))).map (fun r => r.sequence) =
      List.range' 1 ((rows.filter (fun r => decide (groupKey r = k))).length) := by
  unfold set_unique_identifiers
  rw [sui_aux_group_sequences]
  rfl

example :
    (set_unique_identifiers [sampleNormedRow, sampleNormedRow]).map
      (fun r => r.sequence) = [1, 2] := by decide

/-- C7: for every normalized batch, the cleaner's output contains exactly
the input records whose debit amount is non-null, in order, rows with a
null debit being silently excluded; in every output record the raw
merchant text is the lower-cased original and the normalized merchant
equals the raw one with every digit and hash character removed. -/
theorem clean_rows_spec (rows : List RawRow) :
    clean_capital_one_transactions rows =
      (rows.filter (fun r => r.debit.isSome)).map (fun r =>
        { date := r.date
          card_number := r.card_number
          business_or_person_original := r.business_or_person_original.map Char.toLower
          business_or_person :=
            stripDigitsHash (r.business_or_person_original.map Char.toLower)
          category := r.category
          debit := r.debit
          credit := r.credit : NormedRow }) := by
  unfold clean_capital_one_transactions
  simp only [List.map_map]
  rw [List.filter_map]
  rfl

/-- C8: for every raw input file, after renaming issuer headers to
canonical names, normalization returns the renamed table exactly when all
required canonical fields are present, and otherwise fails with the schema
error, returning no partially shaped record. -/
theorem extract_schema_check (cols : List Str) :
    extract_capital_one_columns cols =
      if ∀ c ∈ expected_columns, c ∈ cols.map renameColumn
      then Except.ok (cols.map renameColumn)
      else Except.error schemaErrorMsg := by
  unfold extract_capital_one_columns
  have hiff : (expected_columns.all
      (fun c => decide (c ∈ cols.map renameColumn)) = true) ↔
      (∀ c ∈ expected_columns, c ∈ cols.map renameColumn) := by
    simp
  by_cases h : ∀ c ∈ expected_columns, c ∈ cols.map renameColumn
  · rw [if_pos (hiff.mpr h), if_pos h]
  · rw [if_neg (fun hc => h (hiff.mp hc)), if_neg h]

/-- C9: for every frame, the cleaning step raises its KeyError exactly
when the issuer-specific Posted Date column is absent — the drop of that
column is unconditional — so cleaning succeeds only on frames containing
it, even though Posted Date is not among the canonical fields validated at
normalization time. -/
theorem clean_requires_posted_date (cols : List Str) :
    (POSTED_DATE ∉ cols →
      clean_capital_one_columns cols = Except.error keyErrorPostedDate) ∧
    (POSTED_DATE ∈ cols →
      ∃ out, clean_capital_one_columns cols = Except.ok out) := by
  unfold clean_capital_one_columns
  have hbp : POSTED_DATE ≠ BUSINESS_OR_PERSON := by decide
  constructor
  · intro h
    have h1 : POSTED_DATE ∉
        (if BUSINESS_OR_PERSON ∈ cols then cols else cols ++ [BUSINESS_OR_PERSON]) := by
      by_cases hb : BUSINESS_OR_PERSON ∈ cols
      · simpa [hb] using h
      · rw [if_neg hb]
        simp only [List.mem_append, List.mem_singleton]
        rintro (hc | hc)
        · exact h hc
        · exact hbp hc
    rw [if_neg h1]
  · intro h
    have h1 : POSTED_DATE ∈
        (if BUSINESS_OR_PERSON ∈ cols then cols else cols ++ [BUSINESS_OR_PERSON]) := by
      by_cases hb : BUSINESS_OR_PERSON ∈ cols
      · simpa [hb] using h
      · rw [if_neg hb]
        exact List.mem_append_left _ h
    rw [if_pos h1]
    exact ⟨_, rfl⟩

/-- C3: for every batch B and history H, merging B into H and then merging
B again into the resulting ledger yields a ledger identical to merging B
into H once — the merge of clean_transaction_history is idempotent under
the dedup key (date, merchant_raw, debit_amount, sequence). -/
theorem merge_is_idempotent (B H : List Row) :
    mergeLedger B (mergeLedger B H) = mergeLedger B H :=
  mergeLedger_idem B H

/-- C1: evaluation of main at a concrete failing input.  With a one-row
batch and a one-row history, the file persisted at the history path holds
exactly the batch, and differs from the merged ledger (new + old, deduped,
sorted) that the claim says is rewritten there: line 118 of the source
writes transactions_df instead of the computed transaction_history_df. -/
theorem main_persists_batch_not_merged_ledger :
    (mainRun [sampleBatchRow] (some [sampleHistoryRow])).historyFile =
      some [sampleBatchRow] ∧
    (mainRun [sampleBatchRow] (some [sampleHistoryRow])).historyFile ≠
      some (mergeLedger [sampleBatchRow] [sampleHistoryRow]) := by
  decide

/-- C2, counterexample: on a run with a non-empty batch and an absent
history file, the run does raise, but the claim that zero writes are
performed is false — the dated batch snapshot has already been written by
load_transactions before extract_transaction_history raises. -/
theorem missing_history_run_writes_snapshot :
    (mainRun [sampleBatchRow] none).missingHistoryError = true ∧
    (mainRun [sampleBatchRow] none).importedSnapshot = some [sampleBatchRow] := by
  decide

/-- C2, amended: for every run with a non-empty processed batch whose
history file is absent, the run aborts with the missing-history error and
never writes the ledger file, but the dated batch snapshot has already
been written before the history check. -/
theorem missing_history_aborts_after_snapshot (B : List Row) (h : B ≠ []) :
    mainRun B none = ⟨some B, none, true⟩ := by
  unfold mainRun
  rw [if_neg (by simpa using h)]

/-- C2, witness: the amended statement at a concrete one-row batch. -/
theorem missing_history_aborts_after_snapshot_witness :
    mainRun [sampleBatchRow] none = ⟨some [sampleBatchRow], none, true⟩ :=
  missing_history_aborts_after_snapshot [sampleBatchRow] (by decide)

/-- C5: evaluation of main at a concrete failing input.  Two cleaned rows
that agree on date, merchant and debit but are carried by different cards
each receive sequence 1, so the table persisted at the history path holds
two distinct records that agree on the whole dedup key (date,
merchant_raw, debit_amount, sequence); the merged ledger the claim
describes would have satisfied the uniqueness invariant, but main persists
the pre-merge batch instead. -/
theorem persisted_ledger_duplicate_dedup_key :
    (mainRun (set_unique_identifiers [sampleNormedRow, sampleNormedOtherCard])
        (some [sampleHistoryRow])).historyFile =
      some [{ toNormedRow := sampleNormedRow, sequence := 1 },
            { toNormedRow := sampleNormedOtherCard, sequence := 1 }] ∧
    ({ toNormedRow := sampleNormedRow, sequence := 1 } : Row) ≠
      { toNormedRow := sampleNormedOtherCard, sequence := 1 } ∧
    dedupKey { toNormedRow := sampleNormedRow, sequence := 1 } =
      dedupKey { toNormedRow := sampleNormedOtherCard, sequence := 1 } ∧
    DedupKeysUnique
      (mergeLedger (set_unique_identifiers [sampleNormedRow, sampleNormedOtherCard])
        [sampleHistoryRow]) := by
  refine ⟨by decide, by decide, by decide, ?_⟩
  unfold DedupKeysUnique
  decide

/-- C6: evaluation of main at a concrete failing input.  With a two-row
batch whose dates are ascending, the table persisted at the history path
is that unsorted batch, while the merged ledger actually computed by
clean_transaction_history is sorted by date descending, category
ascending, normalized merchant ascending — main persists the pre-merge
batch instead of the sorted merged ledger. -/
theorem persisted_ledger_not_sorted :
    (mainRun [sampleBatchRow, sampleBatchRowLater] (some [sampleHistoryRow])).historyFile =
      some [sampleBatchRow, sampleBatchRowLater] ∧
    isSortedLedger [sampleBatchRow, sampleBatchRowLater] = false ∧
    isSortedLedger
      (mergeLedger [sampleBatchRow, sampleBatchRowLater] [sampleHistoryRow]) = true := by
  decide

/-- C10, witness: with a batch row and a historical row sharing the whole
dedup key, the merged ledger keeps exactly the batch's copy. -/
theorem merge_keeps_new_batch_copy_witness :
    (mergeLedger [sampleBatchRow] [sampleDupHistRow]).filter
        (fun r => decide (dedupKey r = dedupKey sampleBatchRow)) = [sampleBatchRow] := by
  rw [mergeLedger_filter_key [sampleBatchRow] [sampleDupHistRow]
    (dedupKey sampleBatchRow) (by decide)]
  decide

example :
    extract_capital_one_columns ["Transaction Date".data, "Card No.".data,
      "Description".data, "Category".data, "Debit".data, "Credit".data] =
      Except.ok expected_columns ∧
    extract_capital_one_columns ["Transaction Date".data, "Card No.".data,
      "Category".data, "Debit".data, "Credit".data] =
      Except.error schemaErrorMsg := by
  decide

/-- C9, witness: the canonical six-column frame passes the schema check of
extraction yet makes the cleaner raise its KeyError, because the frame has
no Posted Date column; adding that column makes the cleaner succeed. -/
theorem clean_requires_posted_date_witness :
    clean_capital_one_columns expected_columns = Except.error keyErrorPostedDate ∧
    clean_capital_one_columns (expected_columns ++ [POSTED_DATE]) =
      Except.ok (expected_columns ++ [BUSINESS_OR_PERSON]) := by
  constructor
  · exact (clean_requires_posted_date expected_columns).1 (by decide)
  · decide
